import Mathlib

/-!
Verification of the ywng/raft repository against its specification.

The Go sources are shallowly embedded: the in-memory key-value state
machine (kvstore.go, given as src/unnamed/part_000), the Raft server
helpers (src/server/raft.go) and the random election timeout helper
(src/unnamed/part_001).  Go maps are modelled as association lists
(faithful up to lookup), int64 fields as Int, channels as opaque Nat
identifiers, and operations that panic in Go (nil dereference,
out-of-range slice, log.Fatalf) return none.
-/

set_option autoImplicit false

namespace RaftYwng

/-! ## Association lists: the model of Go maps -/

def alistLookup {κ ν : Type} [DecidableEq κ] : List (κ × ν) → κ → Option ν
  | [], _ => none
  | (k0, v0) :: rest, k => if k0 = k then some v0 else alistLookup rest k

def alistInsert {κ ν : Type} [DecidableEq κ] : List (κ × ν) → κ → ν → List (κ × ν)
  | [], k, v => [(k, v)]
  | (k0, v0) :: rest, k, v =>
      if k0 = k then (k, v) :: rest else (k0, v0) :: alistInsert rest k v

def alistDelete {κ ν : Type} [DecidableEq κ] : List (κ × ν) → κ → List (κ × ν)
  | [], _ => []
  | (k0, v0) :: rest, k =>
      if k0 = k then alistDelete rest k else (k0, v0) :: alistDelete rest k

theorem alistLookup_insert {κ ν : Type} [DecidableEq κ]
    (m : List (κ × ν)) (k k2 : κ) (v : ν) :
    alistLookup (alistInsert m k v) k2 =
      if k = k2 then some v else alistLookup m k2 := by
  induction m with
  | nil => simp [alistInsert, alistLookup]
  | cons hd tl ih =>
    obtain ⟨k0, v0⟩ := hd
    by_cases h0 : k0 = k
    · subst h0
      simp only [alistInsert, if_pos rfl]
      by_cases h2 : k0 = k2 <;> simp [alistLookup, h2]
    · simp only [alistInsert, if_neg h0]
      by_cases h2 : k0 = k2
      · subst h2
        have : ¬ k = k0 := fun h => h0 h.symm
        simp [alistLookup, this]
      · simp [alistLookup, h2, ih]

theorem alistLookup_delete {κ ν : Type} [DecidableEq κ]
    (m : List (κ × ν)) (k k2 : κ) :
    alistLookup (alistDelete m k) k2 =
      if k = k2 then none else alistLookup m k2 := by
  induction m with
  | nil => simp [alistDelete, alistLookup]
  | cons hd tl ih =>
    obtain ⟨k0, v0⟩ := hd
    by_cases h0 : k0 = k
    · subst h0
      by_cases h2 : k0 = k2
      · subst h2; simpa [alistDelete, alistLookup] using ih
      · simpa [alistDelete, alistLookup, h2] using ih
    · by_cases h2 : k0 = k2
      · subst h2
        have : ¬ k = k0 := fun h => h0 h.symm
        simp [alistDelete, alistLookup, h0, this]
      · simp [alistDelete, alistLookup, h0, h2, ih]

/-! ## The pb message types needed by the claims -/

/-- The pb.Op enumeration. -/
inductive Op
  | GET
  | SET
  | CLEAR
  | CAS
  | CONFIG_CHG
deriving DecidableEq

/-- The oneof arg payload of pb.Command.  Sub-messages of a set payload are
modelled as present (the claims never exercise nil sub-messages inside a
correctly tagged payload). -/
inductive CommandArg
  | argGet (key : String)
  | argSet (key value : String)
  | argClear
  | argCas (key expected newValue : String)
  | argServers (currList newList : String)
deriving DecidableEq

/-- pb.Command: an operation tag together with an optional oneof payload. -/
structure Command where
  operation : Op
  arg : Option CommandArg
deriving DecidableEq

/-- pb.Result: a oneof over redirect, key-value, success and failure; an
unset oneof (the literal pb.Result{}) is the empty variant. -/
inductive Result
  | redirect (server : String)
  | kv (key value : String)
  | success
  | failure (msg : String)
  | empty
deriving DecidableEq

/-- The value carried by a key-value Result, if any. -/
def resultValue : Result → Option String
  | Result.kv _ v => some v
  | _ => none

/-- The KVStore's map from string key to string value. -/
abbrev Store := List (String × String)

/-- Reading a Go map returns the zero value (the empty string) for a key
that is absent. -/
def mapGet (m : Store) (k : String) : String :=
  (alistLookup m k).getD ""

/-- The c.GetGet() accessor: the Key payload, or nil for another variant. -/
def getGetArg (c : Command) : Option String :=
  match c.arg with
  | some (CommandArg.argGet k) => some k
  | _ => none

/-- The c.GetSet() accessor. -/
def getSetArg (c : Command) : Option (String × String) :=
  match c.arg with
  | some (CommandArg.argSet k v) => some (k, v)
  | _ => none

/-- The c.GetCas() accessor. -/
def getCasArg (c : Command) : Option (String × String × String) :=
  match c.arg with
  | some (CommandArg.argCas k v vn) => some (k, v, vn)
  | _ => none

/-! ## KVStore internal operations (part_000) -/

/-- KVStore.GetInternal: reply with the key and its current value (empty
string when absent); the store is unchanged. -/
def GetInternal (store : Store) (k : String) : Store × Result :=
  (store, Result.kv k (mapGet store k))

/-- KVStore.SetInternal: assign and reply with the pair. -/
def SetInternal (store : Store) (k v : String) : Store × Result :=
  (alistInsert store k v, Result.kv k v)

/-- KVStore.ClearInternal: reset the mapping and reply Success. -/
def ClearInternal (_store : Store) : Store × Result :=
  ([], Result.success)

/-- KVStore.CasInternal: if the current value (empty string when absent)
equals the expected value, assign the new value and reply with it,
otherwise leave the store unchanged and reply with the current value. -/
def CasInternal (store : Store) (k v vn : String) : Store × Result :=
  let vc := mapGet store k
  if vc = v then (alistInsert store k vn, Result.kv k vn)
  else (store, Result.kv k vc)

/-- KVStore.HandleCommand: dispatch on the operation tag.  The returned
triple is (new store, result sent on the reply channel, unrecognizedOp
flag).  A nil payload dereference (wrongly tagged oneof) is a Go panic,
modelled as none.  The default branch (taken for CONFIG_CHG, which has no
case) produces the blank pb.Result{} and sets the unrecognizedOp flag. -/
def HandleCommand (store : Store) (c : Command) : Option (Store × Result × Bool) :=
  match c.operation with
  | Op.GET =>
      match getGetArg c with
      | none => none
      | some k => some (store, (GetInternal store k).2, false)
  | Op.SET =>
      match getSetArg c with
      | none => none
      | some (k, v) =>
          let r := SetInternal store k v
          some (r.1, r.2, false)
  | Op.CLEAR =>
      let r := ClearInternal store
      some (r.1, r.2, false)
  | Op.CAS =>
      match getCasArg c with
      | none => none
      | some (k, v, vn) =>
          let r := CasInternal store k v vn
          some (r.1, r.2, false)
  | Op.CONFIG_CHG => some (store, Result.empty, true)

/-- Running HandleCommand to completion: after the (non-blocking) reply
send, an unrecognized operation hits log.Fatalf and the process aborts,
modelled as none. -/
def HandleCommandRun (store : Store) (c : Command) : Option (Store × Result) :=
  match HandleCommand store c with
  | none => none
  | some (_, _, true) => none
  | some (st, res, false) => some (st, res)

/-- A command whose operation tag has a switch case and whose payload
matches the tag: exactly these commands complete HandleCommand without the
fatal branch or a panic. -/
def recognizedCommand (c : Command) : Bool :=
  match c.operation, c.arg with
  | Op.GET, some (CommandArg.argGet _) => true
  | Op.SET, some (CommandArg.argSet _ _) => true
  | Op.CLEAR, _ => true
  | Op.CAS, some (CommandArg.argCas _ _ _) => true
  | _, _ => false

theorem recognized_run (store : Store) (c : Command)
    (h : recognizedCommand c = true) :
    ∃ y, HandleCommandRun store c = some y := by
  unfold recognizedCommand at h
  unfold HandleCommandRun HandleCommand
  rcases c with ⟨op, arg⟩
  cases op <;> rcases arg with _ | a <;> try cases a
  all_goals simp_all [getGetArg, getSetArg, getCasArg]

/-! ## Claim C1: ChangeConfiguration at HandleCommand -/

/-- Claim C1 counterexample: a committed ChangeConfiguration command does
reach the fatal unknown-command branch.  HandleCommand on a CONFIG_CHG
command leaves the store unchanged and dispatches the blank reply, but the
unrecognizedOp flag is set (the claim asserts it is not), and the
process aborts at log.Fatalf. -/
theorem c1_configchg_fatal_ce :
    HandleCommand [] { operation := Op.CONFIG_CHG,
                       arg := some (CommandArg.argServers "" "") }
      = some ([], Result.empty, true) ∧
    HandleCommandRun [] { operation := Op.CONFIG_CHG,
                          arg := some (CommandArg.argServers "" "") } = none := by
  constructor <;> rfl

/-- Claim C1 (amended): for every committed ChangeConfiguration command,
HandleCommand leaves the key-value mapping unchanged and dispatches a
blank reply, but the command falls to the default unknown-command branch:
the unrecognizedOp flag is set and the process aborts fatally rather than
continuing normally. -/
theorem c1_configchg_noop_but_fatal (store : Store) (arg : Option CommandArg) :
    HandleCommand store { operation := Op.CONFIG_CHG, arg := arg }
      = some (store, Result.empty, true) ∧
    HandleCommandRun store { operation := Op.CONFIG_CHG, arg := arg } = none := by
  constructor <;> rfl

/-! ## Claim C3: CompareAndSet -/

/-- Claim C3 counterexample: the returned value can equal the new value
although the assignment did not take effect.  On the empty store,
CompareAndSet(("x", "A"), "") finds current value "" which differs from
the expected "A", leaves the store unchanged, and replies ("x", "") —
whose value equals the new value "". -/
theorem c3_cas_iff_ce :
    ¬ ((resultValue (CasInternal [] "x" "A" "").2 = some "") ↔
        mapGet [] "x" = "A") := by
  decide

/-- Claim C3 (amended): if the current value of k equals expected then k
is assigned new and the reply is (k, new); otherwise the store is
unchanged and the reply is (k, current value); and the returned value
equals new iff the assignment took effect or the current value already
equals new. -/
theorem c3_cas_spec (store : Store) (k v vn : String) :
    (mapGet store k = v →
        CasInternal store k v vn = (alistInsert store k vn, Result.kv k vn)) ∧
    (mapGet store k ≠ v →
        CasInternal store k v vn = (store, Result.kv k (mapGet store k))) ∧
    (resultValue (CasInternal store k v vn).2 = some vn ↔
        (mapGet store k = v ∨ mapGet store k = vn)) := by
  by_cases h : mapGet store k = v
  · refine ⟨fun _ => ?_, fun hc => absurd h hc, ?_⟩
    · simp [CasInternal, h]
    · simp [CasInternal, h, resultValue]
  · refine ⟨fun hc => absurd hc h, fun _ => ?_, ?_⟩
    · simp [CasInternal, h]
    · simp only [CasInternal, if_neg h, resultValue, Option.some.injEq]
      constructor
      · intro hv; exact Or.inr hv
      · rintro (hv | hv)
        · exact absurd hv h
        · exact hv

/-- Claim C3 witness: the specification's CAS scenario.  After
Set("x","A"), CAS(("x","A"),"B") succeeds and returns ("x","B"); then
CAS(("x","A"),"C") fails and returns ("x","B") with no change. -/
theorem c3_cas_spec_witness :
    CasInternal [("x", "A")] "x" "A" "B" = ([("x", "B")], Result.kv "x" "B") ∧
    CasInternal [("x", "B")] "x" "A" "C" = ([("x", "B")], Result.kv "x" "B") := by
  constructor
  · have h := (c3_cas_spec [("x", "A")] "x" "A" "B").1 (by decide)
    simpa using h
  · have h := (c3_cas_spec [("x", "B")] "x" "A" "C").2.1 (by decide)
    simpa using h

/-! ## Snapshot restore (part_000 ApplySnapshot) -/

/-- KVStore.ApplySnapshot: gob-decode the snapshot blob into s.store.  The
blob is modelled by the mapping it encodes (a Go map gob-encodes as its
key/element pairs, with pairwise distinct keys).  encoding/gob decodes a
map into a non-nil target by storing each decoded pair into the existing
map — it allocates a fresh map only when the target is nil and never
clears entries already present — so decoding merges into the prior store.
The ignored Decode error does not affect a well-formed blob. -/
def ApplySnapshot (store : Store) (snapshot : Store) : Store :=
  snapshot.foldl (fun m kv => alistInsert m kv.1 kv.2) store

/-- Applying a sequence of committed commands to a store, aborting (none)
if any command panics or hits the fatal unknown-command branch. -/
def applyCommands (store : Store) : List Command → Option Store
  | [] => some store
  | c :: cs =>
      match HandleCommandRun store c with
      | none => none
      | some (st, _) => applyCommands st cs

theorem alistLookup_some_mem_keys {κ ν : Type} [DecidableEq κ]
    (m : List (κ × ν)) (k : κ) (v : ν)
    (h : alistLookup m k = some v) : k ∈ m.map Prod.fst := by
  induction m with
  | nil => simp [alistLookup] at h
  | cons hd tl ih =>
    obtain ⟨k0, v0⟩ := hd
    by_cases h0 : k0 = k
    · subst h0; simp
    · simp only [alistLookup, if_neg h0] at h
      simpa using Or.inr (ih h)

theorem alistInsert_mem_keys {κ ν : Type} [DecidableEq κ]
    (m : List (κ × ν)) (k k2 : κ) (v : ν) :
    k2 ∈ (alistInsert m k v).map Prod.fst ↔ k2 ∈ m.map Prod.fst ∨ k2 = k := by
  induction m with
  | nil => simp [alistInsert]
  | cons hd tl ih =>
    obtain ⟨k0, v0⟩ := hd
    by_cases h0 : k0 = k
    · subst h0
      simp [alistInsert]
      tauto
    · simp only [alistInsert, if_neg h0, List.map_cons, List.mem_cons, ih]
      tauto

theorem alistInsert_keys_nodup {κ ν : Type} [DecidableEq κ]
    (m : List (κ × ν)) (k : κ) (v : ν)
    (h : (m.map Prod.fst).Nodup) : ((alistInsert m k v).map Prod.fst).Nodup := by
  induction m with
  | nil => simp [alistInsert]
  | cons hd tl ih =>
    obtain ⟨k0, v0⟩ := hd
    simp only [List.map_cons, List.nodup_cons] at h
    by_cases h0 : k0 = k
    · subst h0
      simpa [alistInsert] using h
    · simp only [alistInsert, if_neg h0, List.map_cons, List.nodup_cons]
      refine ⟨?_, ih h.2⟩
      intro hmem
      rcases (alistInsert_mem_keys tl k k0 v).mp hmem with hin | heq
      · exact h.1 hin
      · exact h0 heq

theorem applySnapshot_lookup (M : Store) :
    ∀ (store : Store) (k : String), (M.map Prod.fst).Nodup →
      alistLookup (ApplySnapshot store M) k =
        (alistLookup M k).orElse (fun _ => alistLookup store k) := by
  induction M with
  | nil =>
    intro store k _
    simp [ApplySnapshot, alistLookup, Option.orElse]
  | cons hd tl ih =>
    intro store k hnd
    obtain ⟨k0, v0⟩ := hd
    simp only [List.map_cons, List.nodup_cons] at hnd
    have step : ApplySnapshot store ((k0, v0) :: tl) =
        ApplySnapshot (alistInsert store k0 v0) tl := rfl
    rw [step, ih (alistInsert store k0 v0) k hnd.2]
    rcases htl : alistLookup tl k with _ | w
    · by_cases hk : k0 = k
      · subst hk
        simp [alistLookup, alistLookup_insert, Option.orElse]
      · simp [alistLookup, hk, alistLookup_insert, htl, Option.orElse]
    · have hkmem : k ∈ tl.map Prod.fst := alistLookup_some_mem_keys tl k w htl
      have hk : ¬ k0 = k := fun h => hnd.1 (h ▸ hkmem)
      simp [alistLookup, hk, htl, Option.orElse]

theorem handleRun_preserves_nodup (store : Store) (c : Command)
    (st : Store) (res : Result)
    (h : HandleCommandRun store c = some (st, res))
    (hnd : (store.map Prod.fst).Nodup) : (st.map Prod.fst).Nodup := by
  rcases c with ⟨op, arg⟩
  cases op <;> rcases arg with _ | (k | ⟨k, v⟩ | _ | ⟨k, v, vn⟩ | ⟨c1, c2⟩) <;>
    simp only [HandleCommandRun, HandleCommand, getGetArg, getSetArg, getCasArg,
      GetInternal, SetInternal, ClearInternal, Option.some.injEq, Prod.mk.injEq,
      reduceCtorEq] at h
  all_goals
    obtain ⟨h1, -⟩ := h
    subst h1
    first
      | exact hnd
      | exact alistInsert_keys_nodup store _ _ hnd
      | simp
      | (unfold CasInternal
         by_cases hc : mapGet store k = v <;>
           simp only [if_pos, if_neg, hc, ite_true, ite_false, if_true, if_false] <;>
           first
             | exact alistInsert_keys_nodup store _ _ hnd
             | exact hnd)

theorem applyCommands_nodup (cmds : List Command) :
    ∀ (store st : Store), applyCommands store cmds = some st →
      (store.map Prod.fst).Nodup → (st.map Prod.fst).Nodup := by
  induction cmds with
  | nil =>
    intro store st h hnd
    simp only [applyCommands, Option.some.injEq] at h
    exact h ▸ hnd
  | cons c cs ih =>
    intro store st h hnd
    simp only [applyCommands] at h
    rcases hr : HandleCommandRun store c with _ | y
    · rw [hr] at h; exact absurd h (by simp)
    · rw [hr] at h
      obtain ⟨st1, res1⟩ := y
      exact ih st1 st h (handleRun_preserves_nodup store c st1 res1 hr hnd)

/-! ## Claim C2: snapshot restore -/

/-- Claim C2 counterexample: restoring a snapshot does not replace the
mapping wholesale.  Restoring the blob that encodes the mapping b maps to 2 into
a store already holding a maps to 1 keeps the prior key a, so the resulting
mapping differs from the decoded mapping at a. -/
theorem c2_snapshot_not_wholesale_ce :
    ¬ (alistLookup (ApplySnapshot [("a", "1")] [("b", "2")]) "a" =
        alistLookup [("b", "2")] "a") := by
  decide

/-- Claim C2 (amended): ApplySnapshot merges the decoded mapping into the
existing store — every key of the snapshot takes its snapshot value and
every other pre-existing key keeps its prior value — so restoring into a
fresh (empty) store yields exactly the snapshotted mapping, and the
apply-snapshot-restore round trip holds when the target store is fresh. -/
theorem c2_snapshot_restore_merge :
    (∀ (store M : Store) (k : String), (M.map Prod.fst).Nodup →
        alistLookup (ApplySnapshot store M) k =
          (alistLookup M k).orElse (fun _ => alistLookup store k)) ∧
    (∀ (cmds : List Command) (st : Store),
        applyCommands [] cmds = some st →
        ∀ k, alistLookup (ApplySnapshot [] st) k = alistLookup st k) := by
  constructor
  · intro store M k h
    exact applySnapshot_lookup M store k h
  · intro cmds st h k
    have hnd : (st.map Prod.fst).Nodup :=
      applyCommands_nodup cmds [] st h (by simp)
    have := applySnapshot_lookup st [] k hnd
    rw [this]
    rcases alistLookup st k with _ | w <;> simp [alistLookup, Option.orElse]

/-- Claim C2 witness: a snapshot key wins, a disjoint prior key survives,
and the round trip from a fresh store after a single Set holds. -/
theorem c2_snapshot_restore_merge_witness :
    alistLookup (ApplySnapshot [("a", "1")] [("b", "2")]) "b" = some "2" ∧
    alistLookup
      (ApplySnapshot []
        ((applyCommands []
          [{ operation := Op.SET, arg := some (CommandArg.argSet "x" "A") }]).getD []))
      "x" = some "A" := by
  constructor
  · have h := c2_snapshot_restore_merge.1 [("a", "1")] [("b", "2")] "b" (by decide)
    rw [h]; decide
  · have happ : applyCommands []
        [{ operation := Op.SET, arg := some (CommandArg.argSet "x" "A") }] =
        some [("x", "A")] := by decide
    have h := c2_snapshot_restore_merge.2 _ [("x", "A")] happ "x"
    rw [happ]
    simpa using h

/-! ## Claim C9: random election timeout (part_001 randomDuration) -/

def DurationMax : Nat := 4000

def DurationMin : Nat := 1000

/-- randomDuration: r.Intn(DurationMax − DurationMin) + DurationMin, in
milliseconds.  The argument models the value returned by
rand.Intn(DurationMax − DurationMin), which lies in [0, 3000). -/
def randomDuration (draw : Nat) : Nat :=
  draw + DurationMin

/-- Claim C9 counterexample: no random draw yields a 4000 ms timeout —
rand.Intn(3000) is at most 2999, so the result is at most 3999 ms. -/
theorem c9_timeout_ce :
    ¬ (∃ draw, draw < DurationMax - DurationMin ∧ randomDuration draw = 4000) := by
  rintro ⟨d, h1, h2⟩
  simp only [randomDuration, DurationMax, DurationMin] at h1 h2
  omega

/-- Claim C9 (amended): every duration returned by randomDuration lies in
the half-open interval [1000 ms, 4000 ms) — equivalently in [1000, 3999]
— and every integer millisecond value in [1000, 3999] is returned for
some random draw; 4000 ms itself is never returned. -/
theorem c9_timeout_range :
    (∀ draw, draw < DurationMax - DurationMin →
        DurationMin ≤ randomDuration draw ∧ randomDuration draw ≤ 3999) ∧
    (∀ v, DurationMin ≤ v → v ≤ 3999 →
        ∃ draw, draw < DurationMax - DurationMin ∧ randomDuration draw = v) := by
  constructor
  · intro draw h
    simp only [randomDuration, DurationMax, DurationMin] at *
    omega
  · intro v h1 h2
    refine ⟨v - DurationMin, ?_, ?_⟩ <;>
      simp only [randomDuration, DurationMax, DurationMin] at * <;> omega

/-- Claim C9 witness: the extreme draws 0 and 2999 yield 1000 ms and
3999 ms. -/
theorem c9_timeout_range_witness :
    (DurationMin ≤ randomDuration 0 ∧ randomDuration 0 ≤ 3999) ∧
    (∃ draw, draw < DurationMax - DurationMin ∧ randomDuration draw = 3999) := by
  exact ⟨c9_timeout_range.1 0 (by decide), c9_timeout_range.2 3999 (by decide) (by decide)⟩

/-! ## Raft server model (src/server/raft.go) -/

/-- pb.Entry: a log entry (term, index, command); the command pointer is
nil in the boot sentinel. -/
structure Entry where
  term : Int
  index : Int
  cmd : Option Command
deriving DecidableEq

def follower : Int := 1

def candidate : Int := 2

def leader : Int := 3

def HEARTBEAT_TIMEOUT : Int := 500

def LOG_COMPACTION_LIMIT : Int := 30

/-- The Raft struct, restricted to the state the claims touch, together
with the Persister's two slots.  Go maps are association lists, reply
channels are opaque Nat identifiers, and a timer is modelled as
some duration while running and none while stopped. -/
structure RaftState where
  me : String
  leader : String
  state : Int
  quorumSize : Int
  currentTerm : Int
  votedFor : String
  log : List Entry
  commitIndex : Int
  lastApplied : Int
  nextIndex : List (String × Int)
  matchIndex : List (String × Int)
  clientsResponse : List (Int × Nat)
  peers : List String
  lastSnapshotLogEntry : Option Entry
  electionTimer : Option Int
  heartBeatTimer : Option Int
  persistedRaftState : Option (Int × String × List Entry)
  persistedSnapshot : Option Store
deriving DecidableEq

/-- Raft.persist: gob-encode (currentTerm, votedFor, log) and save it to
the persister's raft_state slot. -/
def persist (r : RaftState) : RaftState :=
  { r with persistedRaftState := some (r.currentTerm, r.votedFor, r.log) }

/-- Raft.getFirstLogIndex reads r.log[0].Index; 0 stands for the panic
value on an empty log (callers guard or panic separately). -/
def firstIndexOf (log : List Entry) : Int :=
  (log.head?.elim 0 Entry.index)

/-- Raft.getLastLogIndex reads r.log[len-1].Index. -/
def lastIndexOfLog (log : List Entry) : Int :=
  (log.getLast?.elim 0 Entry.index)

/-- Raft.getLogEntry: total at the interface.  Returns some (entry, ok)
with ok=false (and a nil entry) for an empty log or an index outside
[firstIndex, lastIndex]; inside the bounds it reads log[index-firstIndex],
and none models the Go panic when that offset is out of range (possible
only for a non-contiguous log). -/
def getLogEntry (log : List Entry) (index : Int) : Option (Option Entry × Bool) :=
  if log.length = 0 then some (none, false)
  else if lastIndexOfLog log < index ∨ firstIndexOf log > index then some (none, false)
  else
    match log.get? (index - firstIndexOf log).toNat with
    | some e => some (some e, true)
    | none => none

/-- Raft.getEntryFrom: the suffix r.log[index-firstIndex:].  none models
the Go panics: reading log[0].Index on an empty log, and slicing with a
negative or too-large offset. -/
def getEntryFrom (log : List Entry) (index : Int) : Option (List Entry) :=
  match log.head? with
  | none => none
  | some e0 =>
      let sliceIndex := index - e0.index
      if 0 ≤ sliceIndex ∧ sliceIndex ≤ (log.length : Int) then
        some (log.drop sliceIndex.toNat)
      else none

/-- The log's Index fields run contiguously starting from i. -/
def contiguousFrom : List Entry → Int → Bool
  | [], _ => true
  | e :: rest, i => (e.index == i) && contiguousFrom rest (i + 1)

/-- A well-formed log: non-empty with contiguous indices (spec invariant
(a) and the no-empty-logs rule). -/
def logWF (log : List Entry) : Bool :=
  !log.isEmpty && contiguousFrom log (firstIndexOf log)

theorem contiguousFrom_get (l : List Entry) :
    ∀ (i : Int) (n : Nat) (e : Entry), contiguousFrom l i = true →
      l.get? n = some e → e.index = i + n := by
  induction l with
  | nil => intro i n e _ hg; simp at hg
  | cons hd tl ih =>
    intro i n e hc hg
    simp only [contiguousFrom, Bool.and_eq_true, beq_iff_eq] at hc
    cases n with
    | zero =>
      simp only [List.get?] at hg
      cases hg
      simpa using hc.1
    | succ n =>
      simp only [List.get?] at hg
      have := ih (i + 1) n e hc.2 hg
      push_cast
      omega

theorem logWF_ne_nil (l : List Entry) (h : logWF l = true) : l ≠ [] := by
  intro hl
  subst hl
  simp [logWF] at h

theorem logWF_contiguous (l : List Entry) (h : logWF l = true) :
    contiguousFrom l (firstIndexOf l) = true := by
  simp only [logWF, Bool.and_eq_true] at h
  exact h.2

theorem logWF_last (l : List Entry) (h : logWF l = true) :
    lastIndexOfLog l = firstIndexOf l + l.length - 1 := by
  have hne := logWF_ne_nil l h
  have hlen : 0 < l.length := List.length_pos.mpr hne
  have hlt : l.length - 1 < l.length := by omega
  obtain ⟨e, he⟩ : ∃ e, l.get? (l.length - 1) = some e :=
    ⟨l.get ⟨l.length - 1, hlt⟩, List.get?_eq_get hlt⟩
  have hidx := contiguousFrom_get l (firstIndexOf l) (l.length - 1) e
    (logWF_contiguous l h) he
  have hlast : l.getLast? = some e := by
    rw [List.getLast?_eq_getElem?, ← List.get?_eq_getElem?]
    exact he
  have : lastIndexOfLog l = e.index := by
    simp [lastIndexOfLog, hlast]
  rw [this, hidx]
  have : ((l.length - 1 : Nat) : Int) = (l.length : Int) - 1 := by omega
  rw [this]
  ring

theorem getLogEntry_wf (log : List Entry) (i : Int) (h : logWF log = true)
    (h1 : firstIndexOf log ≤ i) (h2 : i ≤ lastIndexOfLog log) :
    ∃ e, log.get? (i - firstIndexOf log).toNat = some e ∧ e.index = i ∧
      getLogEntry log i = some (some e, true) := by
  have hne := logWF_ne_nil log h
  have hlen : 0 < log.length := List.length_pos.mpr hne
  have hlast := logWF_last log h
  have hofs : (i - firstIndexOf log).toNat < log.length := by omega
  obtain ⟨e, he⟩ : ∃ e, log.get? (i - firstIndexOf log).toNat = some e :=
    ⟨log.get ⟨_, hofs⟩, List.get?_eq_get hofs⟩
  have hidx := contiguousFrom_get log (firstIndexOf log) _ e
    (logWF_contiguous log h) he
  have hcast : ((i - firstIndexOf log).toNat : Int) = i - firstIndexOf log := by omega
  rw [hcast] at hidx
  refine ⟨e, he, by omega, ?_⟩
  have hcond : ¬ (lastIndexOfLog log < i ∨ firstIndexOf log > i) := by omega
  simp only [getLogEntry, if_neg (by omega : ¬ log.length = 0), if_neg hcond, he]

theorem getEntryFrom_wf (log : List Entry) (i : Int) (h : logWF log = true)
    (h1 : firstIndexOf log ≤ i) (h2 : i ≤ lastIndexOfLog log + 1) :
    getEntryFrom log i = some (log.drop (i - firstIndexOf log).toNat) := by
  have hne := logWF_ne_nil log h
  have hlast := logWF_last log h
  obtain ⟨e0, rest, rfl⟩ : ∃ e0 rest, log = e0 :: rest := by
    cases log with
    | nil => exact absurd rfl hne
    | cons a l => exact ⟨a, l, rfl⟩
  have hfst : firstIndexOf (e0 :: rest) = e0.index := by simp [firstIndexOf]
  simp only [getEntryFrom, List.head?]
  rw [if_pos]
  · rw [hfst]
  · rw [← hfst]
    constructor <;> omega

/-! ## Claim C10: totality of getLogEntry -/

/-- Claim C10: getLogEntry is total at the log-access interface.  It
returns ok=false without any slice access whenever the log is empty, the
index is below the first entry's index or above the last entry's index;
and on a non-empty contiguous log it returns ok=true with the entry whose
Index field equals the requested index whenever that index lies within
[firstIndex, lastIndex]. -/
theorem c10_getLogEntry_total (log : List Entry) (i : Int) :
    ((log = [] ∨ i < firstIndexOf log ∨ lastIndexOfLog log < i) →
        getLogEntry log i = some (none, false)) ∧
    (logWF log = true → firstIndexOf log ≤ i → i ≤ lastIndexOfLog log →
        ∃ e, getLogEntry log i = some (some e, true) ∧ e.index = i) := by
  constructor
  · intro h
    unfold getLogEntry
    by_cases hlen : log.length = 0
    · simp [hlen]
    · have hcond : lastIndexOfLog log < i ∨ firstIndexOf log > i := by
        rcases h with h | h | h
        · exact absurd (List.length_eq_zero.mpr h) hlen
        · exact Or.inr h
        · exact Or.inl h
      simp [hlen, hcond]
  · intro h h1 h2
    obtain ⟨e, _, he2, he3⟩ := getLogEntry_wf log i h h1 h2
    exact ⟨e, he3, he2⟩

/-- Claim C10 witness: on the two-entry contiguous log with indices 5 and
6, index 4 and index 7 are rejected and index 6 is found. -/
theorem c10_getLogEntry_total_witness :
    getLogEntry [⟨1, 5, none⟩, ⟨1, 6, none⟩] 7 = some (none, false) ∧
    (∃ e, getLogEntry [⟨1, 5, none⟩, ⟨1, 6, none⟩] 6 = some (some e, true) ∧
      e.index = 6) := by
  constructor
  · exact (c10_getLogEntry_total [⟨1, 5, none⟩, ⟨1, 6, none⟩] 7).1
      (by right; right; decide)
  · exact (c10_getLogEntry_total [⟨1, 5, none⟩, ⟨1, 6, none⟩] 6).2
      (by decide) (by decide) (by decide)

/-! ## Compaction (raft.go lines 213-220) -/

/-- Raft.Compaction: compact the log up to the given index.  The leading
log.Printf reads getFirstLogIndex, panicking on an empty log (none).  The
guard is Go's `lastSnapshotLogEntry == nil || index >
lastSnapshotLogEntry.Index && index > firstLogIndex`.  When it fires, the
snapshot pointer becomes whatever entry getLogEntry returns (the ok flag
is discarded), the log becomes the suffix getEntryFrom(index) — the entry
at the index is retained as-is, its command is not replaced — and the
persistent state is rewritten. -/
def Compaction (r : RaftState) (index : Int) : Option RaftState :=
  match r.log.head? with
  | none => none
  | some _ =>
      let fire : Bool :=
        match r.lastSnapshotLogEntry with
        | none => true
        | some snap => decide (snap.index < index ∧ firstIndexOf r.log < index)
      if fire then
        match getLogEntry r.log index, getEntryFrom r.log index with
        | some (entry?, _), some newLog =>
            some (persist { r with lastSnapshotLogEntry := entry?, log := newLog })
        | _, _ => none
      else some r

theorem drop_head? (l : List Entry) : ∀ n : Nat, (l.drop n).head? = l.get? n := by
  induction l with
  | nil => intro n; cases n <;> simp
  | cons hd tl ih =>
    intro n
    cases n with
    | zero => simp
    | succ n => simp only [List.drop_succ_cons, List.get?]; exact ih n

theorem drop_get? (l : List Entry) : ∀ (n k : Nat), (l.drop n).get? k = l.get? (n + k) := by
  induction l with
  | nil => intro n k; cases n <;> simp
  | cons hd tl ih =>
    intro n k
    cases n with
    | zero => simp
    | succ n =>
      have hh : n + 1 + k = (n + k) + 1 := by omega
      rw [hh]
      simp only [List.drop_succ_cons, List.get?]
      exact ih n k

/-- Firing Compaction on a well-formed log at an in-range index yields the
retained suffix, with the snapshot pointer aimed at the (unchanged) entry
at that index. -/
theorem compaction_fires (r : RaftState) (i : Int)
    (hwf : logWF r.log = true)
    (h1 : firstIndexOf r.log ≤ i) (h2 : i ≤ lastIndexOfLog r.log)
    (hfire : r.lastSnapshotLogEntry = none ∨
      ∃ snap, r.lastSnapshotLogEntry = some snap ∧ snap.index < i ∧
        firstIndexOf r.log < i) :
    ∃ e, r.log.get? (i - firstIndexOf r.log).toNat = some e ∧ e.index = i ∧
      Compaction r i = some (persist { r with
        lastSnapshotLogEntry := some e,
        log := r.log.drop (i - firstIndexOf r.log).toNat }) := by
  have hne := logWF_ne_nil r.log hwf
  obtain ⟨e, hget, hidx, hgle⟩ := getLogEntry_wf r.log i hwf h1 h2
  have hgef := getEntryFrom_wf r.log i hwf h1 (by omega)
  obtain ⟨e0, rest, hlog⟩ : ∃ e0 rest, r.log = e0 :: rest := by
    cases hl : r.log with
    | nil => exact absurd hl hne
    | cons a l => exact ⟨a, l, rfl⟩
  have hhead : r.log.head? = some e0 := by rw [hlog]; rfl
  refine ⟨e, hget, hidx, ?_⟩
  unfold Compaction
  rw [hhead]
  rcases hfire with hnone | ⟨snap, hsnap, hlt1, hlt2⟩
  · simp only [hnone, if_pos, hgle, hgef, ite_true]
  · have : (decide (snap.index < i ∧ firstIndexOf r.log < i)) = true := by
      simp [hlt1, hlt2]
    simp only [hsnap, this, hgle, hgef, ite_true]

/-! ## Claim C5: compaction retains the entry at the boundary -/

def cmdSetA : Command :=
  { operation := Op.SET, arg := some (CommandArg.argSet "a" "1") }

def cmdSetB : Command :=
  { operation := Op.SET, arg := some (CommandArg.argSet "b" "2") }

def rC5 : RaftState :=
  { me := "s0", leader := "s0", state := 3, quorumSize := 2,
    currentTerm := 2, votedFor := "s0",
    log := [⟨1, 1, none⟩, ⟨2, 2, some cmdSetA⟩, ⟨2, 3, some cmdSetB⟩],
    commitIndex := 3, lastApplied := 3,
    nextIndex := [], matchIndex := [], clientsResponse := [],
    peers := ["s1", "s2"],
    lastSnapshotLogEntry := some ⟨1, 1, none⟩,
    electionTimer := none, heartBeatTimer := some 500,
    persistedRaftState := none, persistedSnapshot := none }

/-- Claim C5 counterexample: after Compaction(2) on a server whose entry
at index 2 carries a Set command, the log's first entry still carries
that command — it is not a sentinel with command nil. -/
theorem c5_compaction_sentinel_ce :
    (Compaction rC5 2).map (fun r2 => r2.log.head?.map Entry.cmd)
        = some (some (some cmdSetA)) ∧
    ¬ ((Compaction rC5 2).map (fun r2 => r2.log.head?.map Entry.cmd)
        = some (some (none : Option Command))) := by
  constructor <;> decide

/-- Claim C5 (amended): after Compaction(S) on a server whose log contains
an entry at index S, with S greater than both the snapshot pointer's index
and the first log index, the log's first entry is the original entry at S
— carrying (term of the entry at S, index S) and its original command,
which is not replaced by nil — no entries with index earlier than S are
retained, and the snapshot pointer lastSnapshotLogEntry equals that first
entry; the persisted state is rewritten with the compacted log. -/
theorem c5_compaction_spec (r : RaftState) (S : Int) (snap : Entry)
    (hwf : logWF r.log = true)
    (hsnap : r.lastSnapshotLogEntry = some snap)
    (h1 : snap.index < S)
    (h2 : firstIndexOf r.log < S)
    (h3 : S ≤ lastIndexOfLog r.log) :
    ∃ e r2, Compaction r S = some r2 ∧
      r.log.get? (S - firstIndexOf r.log).toNat = some e ∧
      e.index = S ∧
      e.cmd = (r.log.get? (S - firstIndexOf r.log).toNat).elim none Entry.cmd ∧
      r2.log = r.log.drop (S - firstIndexOf r.log).toNat ∧
      r2.log.head? = some e ∧
      r2.lastSnapshotLogEntry = some e ∧
      (∀ e2 ∈ r2.log, S ≤ e2.index) ∧
      r2.persistedRaftState = some (r.currentTerm, r.votedFor, r2.log) := by
  obtain ⟨e, hget, hidx, hcomp⟩ := compaction_fires r S hwf (le_of_lt h2) h3
    (Or.inr ⟨snap, hsnap, h1, h2⟩)
  refine ⟨e, _, hcomp, hget, hidx, by rw [hget]; rfl, rfl, ?_, rfl, ?_, rfl⟩
  · rw [show (persist { r with
        lastSnapshotLogEntry := some e,
        log := r.log.drop (S - firstIndexOf r.log).toNat }).log
      = r.log.drop (S - firstIndexOf r.log).toNat from rfl]
    rw [drop_head?]
    exact hget
  · intro e2 hmem
    rw [show (persist { r with
        lastSnapshotLogEntry := some e,
        log := r.log.drop (S - firstIndexOf r.log).toNat }).log
      = r.log.drop (S - firstIndexOf r.log).toNat from rfl] at hmem
    obtain ⟨k, hk⟩ := List.mem_iff_get?.mp hmem
    rw [drop_get?] at hk
    have := contiguousFrom_get r.log (firstIndexOf r.log) _ e2
      (logWF_contiguous r.log hwf) hk
    have hcast : ((S - firstIndexOf r.log).toNat : Int) = S - firstIndexOf r.log := by
      omega
    have hsum : (((S - firstIndexOf r.log).toNat + k : Nat) : Int)
        = (S - firstIndexOf r.log) + k := by
      push_cast
      omega
    rw [hsum] at this
    omega

/-- Claim C5 witness: the amended statement at a concrete server state. -/
theorem c5_compaction_spec_witness :
    logWF rC5.log = true ∧
    (∃ e r2, Compaction rC5 2 = some r2 ∧
      rC5.log.get? ((2 : Int) - firstIndexOf rC5.log).toNat = some e ∧
      e.index = 2 ∧
      e.cmd = (rC5.log.get? ((2 : Int) - firstIndexOf rC5.log).toNat).elim none Entry.cmd ∧
      r2.log = rC5.log.drop ((2 : Int) - firstIndexOf rC5.log).toNat ∧
      r2.log.head? = some e ∧
      r2.lastSnapshotLogEntry = some e ∧
      (∀ e2 ∈ r2.log, (2 : Int) ≤ e2.index) ∧
      r2.persistedRaftState = some (rC5.currentTerm, rC5.votedFor, r2.log)) := by
  refine ⟨by decide, ?_⟩
  exact c5_compaction_spec rC5 2 ⟨1, 1, none⟩ (by decide) (by decide)
    (by decide) (by decide) (by decide)

/-! ## Claim C6: compaction idempotence -/

/-- Compaction whose guard is false is a no-op. -/
theorem compaction_noop (r : RaftState) (j : Int) (e0 snap : Entry)
    (hhead : r.log.head? = some e0)
    (hsnap : r.lastSnapshotLogEntry = some snap)
    (hng : ¬ (snap.index < j ∧ firstIndexOf r.log < j)) :
    Compaction r j = some r := by
  unfold Compaction
  rw [hhead]
  have hdec : (decide (snap.index < j ∧ firstIndexOf r.log < j)) = false := by
    simpa using hng
  simp only [hsnap, hdec, if_false, Bool.false_eq_true, ite_false]

/-- Claim C6: Compaction is idempotent.  For a well-formed server state
whose log contains an entry at index i, running Compaction(i) and then
Compaction(j) with j below or equal to i leaves the server exactly as after
Compaction(i) alone: the second call is a no-op, changing neither the log,
nor lastSnapshotLogEntry, nor the persisted state. -/
theorem c6_compaction_idempotent (r : RaftState) (i j : Int)
    (hwf : logWF r.log = true)
    (h1 : firstIndexOf r.log ≤ i) (h2 : i ≤ lastIndexOfLog r.log)
    (hji : j ≤ i) :
    ∃ r1, Compaction r i = some r1 ∧ Compaction r1 j = some r1 := by
  have hne := logWF_ne_nil r.log hwf
  by_cases hfire : r.lastSnapshotLogEntry = none ∨
      ∃ snap, r.lastSnapshotLogEntry = some snap ∧ snap.index < i ∧
        firstIndexOf r.log < i
  · obtain ⟨e, hget, hidx, hcomp⟩ := compaction_fires r i hwf h1 h2 hfire
    refine ⟨_, hcomp, compaction_noop _ j e e ?_ rfl ?_⟩
    · show (r.log.drop (i - firstIndexOf r.log).toNat).head? = some e
      rw [drop_head?]
      exact hget
    · rintro ⟨hlt, -⟩
      omega
  · push_neg at hfire
    obtain ⟨snap, hsnap⟩ : ∃ snap, r.lastSnapshotLogEntry = some snap := by
      cases hs : r.lastSnapshotLogEntry with
      | none => exact absurd hs hfire.1
      | some s => exact ⟨s, rfl⟩
    have hng : ¬ (snap.index < i ∧ firstIndexOf r.log < i) := by
      intro hh
      have hle := hfire.2 snap hsnap hh.1
      omega
    obtain ⟨e0, rest, hlog⟩ : ∃ e0 rest, r.log = e0 :: rest := by
      cases hl : r.log with
      | nil => exact absurd hl hne
      | cons a l => exact ⟨a, l, rfl⟩
    have hhead : r.log.head? = some e0 := by rw [hlog]; rfl
    have hng2 : ¬ (snap.index < j ∧ firstIndexOf r.log < j) := by
      rintro ⟨ha, hb⟩
      exact hng ⟨by omega, by omega⟩
    exact ⟨r, compaction_noop r i e0 snap hhead hsnap hng,
      compaction_noop r j e0 snap hhead hsnap hng2⟩

def rC6 : RaftState :=
  { me := "s1", leader := "s1", state := 3, quorumSize := 2,
    currentTerm := 1, votedFor := "s1",
    log := [⟨0, 0, none⟩, ⟨1, 1, some cmdSetA⟩, ⟨1, 2, some cmdSetB⟩],
    commitIndex := 2, lastApplied := 2,
    nextIndex := [], matchIndex := [], clientsResponse := [],
    peers := ["s0", "s2"],
    lastSnapshotLogEntry := none,
    electionTimer := none, heartBeatTimer := some 500,
    persistedRaftState := none, persistedSnapshot := none }

/-- Claim C6 witness: Compaction(2) then Compaction(1) on a concrete
server leaves the state of the first compaction untouched. -/
theorem c6_compaction_idempotent_witness :
    logWF rC6.log = true ∧
    (∃ r1, Compaction rC6 2 = some r1 ∧ Compaction r1 1 = some r1) := by
  exact ⟨by decide,
    c6_compaction_idempotent rC6 2 1 (by decide) (by decide) (by decide) (by decide)⟩

/-! ## Becoming leader (raft.go leaderStatePrep) -/

/-- Raft.leaderStatePrep: set the role to leader, record self as leader,
restart the heartbeat timer at HEARTBEAT_TIMEOUT ms, stop the election
timer, allocate fresh nextIndex/matchIndex/clientsResponse tables, and for
every peer set nextIndex to lastLogIndex+1 and matchIndex to 0.  Reading
getLastLogIndex on an empty log panics (none). -/
def leaderStatePrep (r : RaftState) : Option RaftState :=
  match r.log.getLast? with
  | none => none
  | some lastE =>
      some { r with
        state := leader,
        leader := r.me,
        heartBeatTimer := some HEARTBEAT_TIMEOUT,
        electionTimer := none,
        nextIndex := r.peers.map (fun p => (p, lastE.index + 1)),
        matchIndex := r.peers.map (fun p => (p, 0)),
        clientsResponse := [] }

theorem alistLookup_map_const {κ ν : Type} [DecidableEq κ]
    (l : List κ) (v : ν) (p : κ) (hp : p ∈ l) :
    alistLookup (l.map fun q => (q, v)) p = some v := by
  induction l with
  | nil => simp at hp
  | cons a tl ih =>
    rcases List.mem_cons.mp hp with h | h
    · subst h
      simp [alistLookup]
    · by_cases ha : a = p
      · subst ha; simp [alistLookup]
      · simp only [List.map_cons, alistLookup, if_neg ha]
        exact ih h

/-- Claim C8: on becoming Leader, for every peer p nextIndex[p] is set to
lastLogIndex+1 and matchIndex[p] to 0 — so matchIndex[p] < nextIndex[p]
holds for every peer — the pending client-reply table is reset, the
election timer is stopped, and the heartbeat timer is started with a
500 ms interval.  The hypotheses are log well-formedness: the log is
non-empty (getLastLogIndex would panic otherwise) and its last index is
non-negative, as holds from the boot sentinel onward. -/
theorem c8_leaderStatePrep_spec (r : RaftState)
    (hne : r.log ≠ []) (hnn : 0 ≤ lastIndexOfLog r.log) :
    ∃ r2, leaderStatePrep r = some r2 ∧
      (∀ p ∈ r.peers,
        alistLookup r2.nextIndex p = some (lastIndexOfLog r.log + 1) ∧
        alistLookup r2.matchIndex p = some 0 ∧
        (0 : Int) < lastIndexOfLog r.log + 1) ∧
      r2.clientsResponse = [] ∧
      r2.electionTimer = none ∧
      r2.heartBeatTimer = some HEARTBEAT_TIMEOUT ∧
      HEARTBEAT_TIMEOUT = 500 ∧
      r2.state = leader := by
  cases hh : r.log.getLast? with
  | none =>
      exact absurd (List.getLast?_eq_none_iff.mp hh) hne
  | some lastE =>
      have hidx : lastE.index = lastIndexOfLog r.log := by
        simp [lastIndexOfLog, hh]
      refine ⟨{ r with
          state := leader,
          leader := r.me,
          heartBeatTimer := some HEARTBEAT_TIMEOUT,
          electionTimer := none,
          nextIndex := r.peers.map (fun p => (p, lastE.index + 1)),
          matchIndex := r.peers.map (fun p => (p, 0)),
          clientsResponse := [] }, ?_, ?_, rfl, rfl, rfl, rfl, rfl⟩
      · unfold leaderStatePrep
        rw [hh]
      · intro p hp
        refine ⟨?_, ?_, by omega⟩
        · show alistLookup (r.peers.map fun q => (q, lastE.index + 1)) p
            = some (lastIndexOfLog r.log + 1)
          rw [alistLookup_map_const r.peers _ p hp, hidx]
        · exact alistLookup_map_const r.peers _ p hp

def rC8 : RaftState :=
  { me := "s0", leader := "", state := 2, quorumSize := 2,
    currentTerm := 3, votedFor := "s0",
    log := [⟨0, 0, none⟩, ⟨1, 1, some cmdSetA⟩],
    commitIndex := 1, lastApplied := 1,
    nextIndex := [("s1", 9)], matchIndex := [("s1", 9)],
    clientsResponse := [(1, 7)],
    peers := ["s1", "s2"],
    lastSnapshotLogEntry := none,
    electionTimer := some 2500, heartBeatTimer := none,
    persistedRaftState := none, persistedSnapshot := none }

/-- Claim C8 witness: a candidate with a two-entry log becomes leader. -/
theorem c8_leaderStatePrep_spec_witness :
    rC8.log ≠ [] ∧
    (∃ r2, leaderStatePrep rC8 = some r2 ∧
      (∀ p ∈ rC8.peers,
        alistLookup r2.nextIndex p = some (lastIndexOfLog rC8.log + 1) ∧
        alistLookup r2.matchIndex p = some 0 ∧
        (0 : Int) < lastIndexOfLog rC8.log + 1) ∧
      r2.clientsResponse = [] ∧
      r2.electionTimer = none ∧
      r2.heartBeatTimer = some HEARTBEAT_TIMEOUT ∧
      HEARTBEAT_TIMEOUT = 500 ∧
      r2.state = leader) := by
  exact ⟨by decide, c8_leaderStatePrep_spec rC8 (by decide) (by decide)⟩

/-! ## Replication to a peer (raft.go sendApeendEntriesTo) -/

/-- pb.AppendEntriesArgs. -/
structure AppendEntriesArgs where
  term : Int
  leaderID : String
  prevLogIndex : Int
  prevLogTerm : Int
  leaderCommit : Int
  entries : List Entry
deriving DecidableEq

/-- pb.InstallSnapshotArgs: the snapshot pointer entry and the snapshot
blob read from the persister. -/
structure InstallSnapshotArgs where
  term : Int
  leaderID : String
  lastLogEntry : Entry
  data : Option Store
deriving DecidableEq

/-- What sendApeendEntriesTo hands to the outbound goroutine: an
AppendEntries request whose response will be tagged with matchIndex =
prevLogIndex + number of entries sent and with the sending term, or an
InstallSnapshot request tagged with the sending term. -/
inductive SentMessage
  | appendEntries (args : AppendEntriesArgs) (tagMatchIndex : Int)
      (tagRequestTerm : Int)
  | installSnapshot (args : InstallSnapshotArgs) (tagRequestTerm : Int)
deriving DecidableEq

/-- The tail of sendApeendEntriesTo: build the AppendEntriesArgs.  A
heartbeat carries nil entries; otherwise the entries are the suffix
getEntryFrom(prevLogIndex+1) — the preceding getLogEntry(prevLogIndex+1)
check has an empty body in the source, so a missing entry at
prevLogIndex+1 falls through to the slice, which panics (none) when the
offset is negative. -/
def buildAppendEntries (r : RaftState) (isHeartBeat : Bool)
    (prevLogIndex prevLogTerm : Int) : Option SentMessage :=
  if isHeartBeat then
    some (SentMessage.appendEntries
      { term := r.currentTerm, leaderID := r.me, prevLogIndex := prevLogIndex,
        prevLogTerm := prevLogTerm, leaderCommit := r.commitIndex, entries := [] }
      (prevLogIndex + 0) r.currentTerm)
  else
    match getLogEntry r.log (prevLogIndex + 1) with
    | none => none
    | some _ =>
        match getEntryFrom r.log (prevLogIndex + 1) with
        | none => none
        | some entries =>
            some (SentMessage.appendEntries
              { term := r.currentTerm, leaderID := r.me,
                prevLogIndex := prevLogIndex, prevLogTerm := prevLogTerm,
                leaderCommit := r.commitIndex, entries := entries }
              (prevLogIndex + entries.length) r.currentTerm)

/-- Raft.sendApeendEntriesTo (name as in the source): prepare replication
to peer p.  prevLogIndex = nextIndex[p]-1; prevLogTerm is 0 for
prevLogIndex 0 and otherwise the term of the log entry there; when that
entry is not found (ok=false), an InstallSnapshot carrying the snapshot
pointer and the persisted snapshot blob is sent instead (the log.Printf
dereferences the pointer, so a nil pointer panics).  Reading
getLastLogIndex on an empty log panics (none). -/
def sendApeendEntriesTo (r : RaftState) (p : String) : Option SentMessage :=
  match r.log.getLast? with
  | none => none
  | some lastE =>
      let next := (alistLookup r.nextIndex p).getD 0
      let isHeartBeat : Bool := !(next ≤ lastE.index)
      let prevLogIndex := next - 1
      if prevLogIndex ≠ 0 then
        match getLogEntry r.log prevLogIndex with
        | none => none
        | some (entry?, ok) =>
            if ok then
              match entry? with
              | some e => buildAppendEntries r isHeartBeat prevLogIndex e.term
              | none => none
            else
              match r.lastSnapshotLogEntry with
              | none => none
              | some snap =>
                  some (SentMessage.installSnapshot
                    { term := r.currentTerm, leaderID := r.me,
                      lastLogEntry := snap, data := r.persistedSnapshot }
                    r.currentTerm)
      else buildAppendEntries r isHeartBeat prevLogIndex 0

def rC7 : RaftState :=
  { me := "s0", leader := "s0", state := 3, quorumSize := 2,
    currentTerm := 1, votedFor := "s0",
    log := [⟨1, 2, some cmdSetA⟩, ⟨1, 3, some cmdSetB⟩],
    commitIndex := 3, lastApplied := 3,
    nextIndex := [("s1", 1)], matchIndex := [("s1", 0)],
    clientsResponse := [],
    peers := ["s1", "s2"],
    lastSnapshotLogEntry := some ⟨1, 1, none⟩,
    electionTimer := none, heartBeatTimer := some 500,
    persistedRaftState := none, persistedSnapshot := some [("a", "1")] }

/-- Claim C7: evaluation at the failing input.  On a leader whose log has
been compacted up to index 1 (first retained index 2, snapshot pointer at
index 1, snapshot blob present) and whose nextIndex for peer s1 is 1, the
needed entries are compacted away and the claim (with the specification)
calls for an InstallSnapshot; but prevLogIndex is 0, so the code skips the
InstallSnapshot guard, reaches the empty if-body whose comment says to
send the snapshot, and panics slicing log[-1:] — no message is sent.  The
conjuncts pin down the scenario: nextIndex[s1] is 1, entry 1 is compacted
out while the log is non-empty, and the call panics instead of producing
an InstallSnapshot message. -/
theorem c7_sendAppend_panics_on_compacted_next1 :
    (alistLookup rC7.nextIndex "s1").getD 0 = 1 ∧
    firstIndexOf rC7.log = 2 ∧
    rC7.lastSnapshotLogEntry = some ⟨1, 1, none⟩ ∧
    getLogEntry rC7.log 1 = some (none, false) ∧
    sendApeendEntriesTo rC7 "s1" = none := by
  refine ⟨rfl, rfl, rfl, ?_, ?_⟩ <;> decide

/-! ## The apply pump (raft.go ProcessLogs) -/

/-- One record per applied entry: the log index, the command handed to the
state machine, and the reply sink passed along with it. -/
abbrev TraceItem := Int × Command × Option Nat

/-- The while loop of Raft.ProcessLogs: while commitIndex > lastApplied,
increment lastApplied, fetch the entry there, hand its command to
KVStore.HandleCommand together with the reply sink stored under the
entry's index when the server is leader (nil otherwise), and delete that
stored sink.  none models the Go panics (nil entry or nil command
dereference, panic inside getLogEntry) and the fatal unknown-command
abort inside HandleCommand. -/
def applyPump (r : RaftState) (s : Store) :
    Option (RaftState × Store × List TraceItem) :=
  if _h : r.lastApplied < r.commitIndex then
    match getLogEntry r.log (r.lastApplied + 1) with
    | none => none
    | some (none, _) => none
    | some (some entry, _) =>
        match entry.cmd with
        | none => none
        | some cmd =>
            let sink : Option Nat :=
              if r.state = leader then alistLookup r.clientsResponse entry.index
              else none
            match HandleCommandRun s cmd with
            | none => none
            | some (s1, _) =>
                match applyPump { r with
                    lastApplied := r.lastApplied + 1,
                    clientsResponse :=
                      alistDelete r.clientsResponse entry.index } s1 with
                | none => none
                | some (r2, s2, tr) => some (r2, s2, (entry.index, cmd, sink) :: tr)
  else some (r, s, [])
termination_by (r.commitIndex - r.lastApplied).toNat
decreasing_by
  omega

/-- Raft.ProcessLogs: the apply loop, then — when compaction is enabled
and the log length has reached the threshold — save a snapshot of the
state machine and compact the log up to lastApplied. -/
def ProcessLogs (r : RaftState) (s : Store) :
    Option (RaftState × Store × List TraceItem) :=
  match applyPump r s with
  | none => none
  | some (r1, s1, tr) =>
      if LOG_COMPACTION_LIMIT ≠ -1 ∧ LOG_COMPACTION_LIMIT ≤ (r1.log.length : Int) then
        match Compaction { r1 with persistedSnapshot := some s1 } r1.lastApplied with
        | none => none
        | some r3 => some (r3, s1, tr)
      else some (r1, s1, tr)

/-- The integers start, start+1, ..., start+n-1. -/
def intRange (start : Int) : Nat → List Int
  | 0 => []
  | n + 1 => start :: intRange (start + 1) n

theorem intRange_mem_iff (n : Nat) : ∀ (start i : Int),
    i ∈ intRange start n ↔ start ≤ i ∧ i < start + n := by
  induction n with
  | zero =>
    intro start i
    simp only [intRange, List.not_mem_nil, false_iff]
    omega
  | succ n ih =>
    intro start i
    simp only [intRange, List.mem_cons, ih (start + 1)]
    push_cast
    omega

theorem lookup_foldl_delete (l : List Int) :
    ∀ (m : List (Int × Nat)) (i : Int),
      alistLookup (l.foldl alistDelete m) i =
        if i ∈ l then none else alistLookup m i := by
  induction l with
  | nil => intro m i; simp
  | cons a tl ih =>
    intro m i
    simp only [List.foldl_cons, ih (alistDelete m a) i, alistLookup_delete,
      List.mem_cons]
    by_cases h1 : i ∈ tl
    · simp [h1]
    · by_cases h2 : a = i
      · simp [h1, h2]
      · have : ¬ i = a := fun hh => h2 hh.symm
        simp [h1, h2, this]

/-- The apply pump applies exactly the window (lastApplied, commitIndex]
in increasing index order, finishing with lastApplied = commitIndex and
with exactly the window's stored reply sinks deleted; each applied entry
is handed the sink stored under its index when the server is leader and
nil otherwise. -/
theorem applyPump_spec (n : Nat) :
    ∀ (r : RaftState) (s : Store),
      (r.commitIndex - r.lastApplied).toNat = n →
      logWF r.log = true →
      r.lastApplied ≤ r.commitIndex →
      firstIndexOf r.log ≤ r.lastApplied + 1 →
      r.commitIndex ≤ lastIndexOfLog r.log →
      (∀ e ∈ r.log, r.lastApplied < e.index → e.index ≤ r.commitIndex →
        (e.cmd.elim false recognizedCommand) = true) →
      ∃ s2 tr,
        applyPump r s = some ({ r with
            lastApplied := r.commitIndex,
            clientsResponse :=
              (intRange (r.lastApplied + 1) n).foldl alistDelete
                r.clientsResponse }, s2, tr) ∧
        tr.map (fun x => x.1) = intRange (r.lastApplied + 1) n ∧
        (∀ x ∈ tr,
          (∃ e, getLogEntry r.log x.1 = some (some e, true) ∧ e.index = x.1 ∧
            e.cmd = some x.2.1) ∧
          x.2.2 = (if r.state = leader then alistLookup r.clientsResponse x.1
            else none)) := by
  induction n with
  | zero =>
    intro r s h0 hwf h1 h3 h2 hgood
    have hc : r.commitIndex = r.lastApplied := by omega
    refine ⟨s, [], ?_, rfl, by simp⟩
    have hstop : applyPump r s = some (r, s, []) := by
      rw [applyPump]
      rw [dif_neg (by omega)]
    rw [hstop]
    simp only [intRange, List.foldl_nil]
    obtain ⟨f1, f2, f3, f4, f5, f6, f7, f8, f9, f10, f11, f12, f13, f14, f15,
      f16, f17, f18⟩ := r
    simp only at hc
    rw [hc]
  | succ n ih =>
    intro r s h0 hwf h1 h3 h2 hgood
    have h : r.lastApplied < r.commitIndex := by omega
    obtain ⟨e, hget, hidx, hgle⟩ := getLogEntry_wf r.log (r.lastApplied + 1) hwf
      h3 (by omega)
    have hmem : e ∈ r.log := List.get?_mem hget
    have hgoodE := hgood e hmem (by omega) (by omega)
    obtain ⟨cmd, hcmd⟩ : ∃ cmd, e.cmd = some cmd := by
      cases hec : e.cmd with
      | none => rw [hec] at hgoodE; simp [Option.elim] at hgoodE
      | some c => exact ⟨c, rfl⟩
    have hrecog : recognizedCommand cmd = true := by
      rw [hcmd] at hgoodE
      simpa [Option.elim] using hgoodE
    obtain ⟨⟨s1, res1⟩, hrun⟩ := recognized_run s cmd hrecog
    have hih := ih { r with
        lastApplied := r.lastApplied + 1,
        clientsResponse := alistDelete r.clientsResponse (r.lastApplied + 1) } s1
      (by simp only; omega) hwf (by simp only; omega) (by simp only; omega)
      (by simp only; omega)
      (by
        intro e2 hm ha hb
        exact hgood e2 hm (by simp only at ha; omega) (by simp only at hb; omega))
    obtain ⟨s2, tr, hpump, hmap, hitems⟩ := hih
    refine ⟨s2, (r.lastApplied + 1, cmd, if r.state = leader
        then alistLookup r.clientsResponse (r.lastApplied + 1) else none) :: tr,
      ?_, ?_, ?_⟩
    · rw [applyPump]
      rw [dif_pos h]
      simp only [hgle, hcmd, hrun]
      rw [hidx]
      simp only [hpump, intRange, List.foldl_cons]
    · simp only [List.map_cons, hmap, intRange]
    · intro x hx
      rcases List.mem_cons.mp hx with hx | hx
      · subst hx
        refine ⟨⟨e, ?_, ?_, hcmd⟩, rfl⟩
        · simpa using hgle
        · simpa using hidx
      · obtain ⟨hx1, hx2⟩ := hitems x hx
        have hxmem : x.1 ∈ tr.map (fun y => y.1) :=
          List.mem_map_of_mem (fun y => y.1) hx
        rw [hmap] at hxmem
        have hxrange := (intRange_mem_iff n _ x.1).mp hxmem
        simp only at hxrange
        have hxne : ¬ (r.lastApplied + 1) = x.1 := by omega
        refine ⟨hx1, ?_⟩
        rw [hx2]
        simp only [alistLookup_delete, if_neg hxne]

/-- Compaction at an in-range index of a well-formed log succeeds and
leaves lastApplied, commitIndex, clientsResponse and the role unchanged. -/
theorem compaction_preserves (r : RaftState) (i : Int)
    (hwf : logWF r.log = true)
    (h1 : firstIndexOf r.log ≤ i) (h2 : i ≤ lastIndexOfLog r.log) :
    ∃ r3, Compaction r i = some r3 ∧ r3.lastApplied = r.lastApplied ∧
      r3.commitIndex = r.commitIndex ∧
      r3.clientsResponse = r.clientsResponse ∧
      r3.state = r.state := by
  have hne := logWF_ne_nil r.log hwf
  by_cases hfire : r.lastSnapshotLogEntry = none ∨
      ∃ snap, r.lastSnapshotLogEntry = some snap ∧ snap.index < i ∧
        firstIndexOf r.log < i
  · obtain ⟨e, -, -, hcomp⟩ := compaction_fires r i hwf h1 h2 hfire
    exact ⟨_, hcomp, rfl, rfl, rfl, rfl⟩
  · push_neg at hfire
    obtain ⟨snap, hsnap⟩ : ∃ snap, r.lastSnapshotLogEntry = some snap := by
      cases hs : r.lastSnapshotLogEntry with
      | none => exact absurd hs hfire.1
      | some s0 => exact ⟨s0, rfl⟩
    have hng : ¬ (snap.index < i ∧ firstIndexOf r.log < i) := by
      intro hh
      have hle := hfire.2 snap hsnap hh.1
      omega
    obtain ⟨e0, rest, hlog⟩ : ∃ e0 rest, r.log = e0 :: rest := by
      cases hl : r.log with
      | nil => exact absurd hl hne
      | cons a l => exact ⟨a, l, rfl⟩
    have hhead : r.log.head? = some e0 := by rw [hlog]; rfl
    exact ⟨r, compaction_noop r i e0 snap hhead hsnap hng, rfl, rfl, rfl, rfl⟩

/-! ## Claim C4: the apply pump via ProcessLogs -/

/-- Claim C4: for every well-formed server state with firstLogIndex ≤
lastApplied ≤ commitIndex ≤ lastLogIndex whose committed-but-unapplied
entries carry recognized commands, ProcessLogs applies exactly the entries
at indices lastApplied+1 through commitIndex, in strictly increasing index
order (the trace indices are exactly that integer range, so each entry is
applied at most once), and terminates with lastApplied = commitIndex; the
reply sink passed for an entry is the sink stored under that entry's index
when the server is leader and nil otherwise; after the call the stored
sinks of the applied window are removed and all other stored sinks are
untouched. -/
theorem c4_processLogs_spec (r : RaftState) (s : Store)
    (hwf : logWF r.log = true)
    (hfi : firstIndexOf r.log ≤ r.lastApplied)
    (h1 : r.lastApplied ≤ r.commitIndex)
    (h2 : r.commitIndex ≤ lastIndexOfLog r.log)
    (hgood : ∀ e ∈ r.log, r.lastApplied < e.index → e.index ≤ r.commitIndex →
      (e.cmd.elim false recognizedCommand) = true) :
    ∃ r3 s2 tr, ProcessLogs r s = some (r3, s2, tr) ∧
      tr.map (fun x => x.1) =
        intRange (r.lastApplied + 1) (r.commitIndex - r.lastApplied).toNat ∧
      r3.lastApplied = r.commitIndex ∧
      r3.commitIndex = r.commitIndex ∧
      (∀ x ∈ tr,
        (∃ e, getLogEntry r.log x.1 = some (some e, true) ∧ e.index = x.1 ∧
          e.cmd = some x.2.1) ∧
        x.2.2 = (if r.state = leader then alistLookup r.clientsResponse x.1
          else none)) ∧
      (∀ i, r.lastApplied < i → i ≤ r.commitIndex →
        alistLookup r3.clientsResponse i = none) ∧
      (∀ i, i ≤ r.lastApplied ∨ r.commitIndex < i →
        alistLookup r3.clientsResponse i = alistLookup r.clientsResponse i) := by
  obtain ⟨s2, tr, hpump, hmap, hitems⟩ :=
    applyPump_spec (r.commitIndex - r.lastApplied).toNat r s rfl hwf h1
      (by omega) h2 hgood
  have hcrlook : ∀ i : Int,
      alistLookup ((intRange (r.lastApplied + 1)
          (r.commitIndex - r.lastApplied).toNat).foldl alistDelete
            r.clientsResponse) i =
        if r.lastApplied < i ∧ i ≤ r.commitIndex then none
        else alistLookup r.clientsResponse i := by
    intro i
    rw [lookup_foldl_delete]
    by_cases hin : i ∈ intRange (r.lastApplied + 1)
        (r.commitIndex - r.lastApplied).toNat
    · rw [if_pos hin, if_pos (by
        have hr := (intRange_mem_iff _ _ i).mp hin
        omega)]
    · have hnot : ¬ (r.lastApplied < i ∧ i ≤ r.commitIndex) := by
        intro hh
        exact hin ((intRange_mem_iff _ _ i).mpr ⟨by omega, by omega⟩)
      rw [if_neg hin, if_neg hnot]
  unfold ProcessLogs
  simp only [hpump]
  split
  · rename_i hcond
    obtain ⟨r3, hcomp, hla, hci, hcr, -⟩ := compaction_preserves
      { r with
        lastApplied := r.commitIndex,
        clientsResponse :=
          (intRange (r.lastApplied + 1)
            (r.commitIndex - r.lastApplied).toNat).foldl alistDelete
              r.clientsResponse,
        persistedSnapshot := some s2 } r.commitIndex hwf (le_trans hfi h1) h2
    simp only [hcomp]
    refine ⟨r3, s2, tr, rfl, hmap, by rw [hla], by rw [hci], hitems, ?_, ?_⟩
    · intro i hia hib
      simp only [hcr]
      rw [hcrlook i, if_pos ⟨hia, hib⟩]
    · intro i hout
      simp only [hcr]
      rw [hcrlook i, if_neg (by omega)]
  · refine ⟨_, s2, tr, rfl, hmap, rfl, rfl, hitems, ?_, ?_⟩
    · intro i hia hib
      simp only
      rw [hcrlook i, if_pos ⟨hia, hib⟩]
    · intro i hout
      simp only
      rw [hcrlook i, if_neg (by omega)]

def rC4 : RaftState :=
  { me := "s0", leader := "s0", state := 3, quorumSize := 2,
    currentTerm := 1, votedFor := "s0",
    log := [⟨0, 0, none⟩, ⟨1, 1, some cmdSetA⟩, ⟨1, 2, some cmdSetB⟩],
    commitIndex := 2, lastApplied := 0,
    nextIndex := [("s1", 3), ("s2", 3)], matchIndex := [("s1", 2), ("s2", 0)],
    clientsResponse := [(1, 11), (2, 12)],
    peers := ["s1", "s2"],
    lastSnapshotLogEntry := none,
    electionTimer := none, heartBeatTimer := some 500,
    persistedRaftState := none, persistedSnapshot := none }

/-- Claim C4 witness: a leader with two committed unapplied Set entries
applies them in order, hands out the stored sinks 11 and 12, and removes
them. -/
theorem c4_processLogs_spec_witness :
    logWF rC4.log = true ∧
    (∃ r3 s2 tr, ProcessLogs rC4 [] = some (r3, s2, tr) ∧
      tr.map (fun x => x.1) =
        intRange (rC4.lastApplied + 1) (rC4.commitIndex - rC4.lastApplied).toNat ∧
      r3.lastApplied = rC4.commitIndex ∧
      r3.commitIndex = rC4.commitIndex ∧
      (∀ x ∈ tr,
        (∃ e, getLogEntry rC4.log x.1 = some (some e, true) ∧ e.index = x.1 ∧
          e.cmd = some x.2.1) ∧
        x.2.2 = (if rC4.state = leader then alistLookup rC4.clientsResponse x.1
          else none)) ∧
      (∀ i, rC4.lastApplied < i → i ≤ rC4.commitIndex →
        alistLookup r3.clientsResponse i = none) ∧
      (∀ i, i ≤ rC4.lastApplied ∨ rC4.commitIndex < i →
        alistLookup r3.clientsResponse i = alistLookup rC4.clientsResponse i)) := by
  exact ⟨by decide, c4_processLogs_spec rC4 [] (by decide) (by decide) (by decide)
    (by decide) (by decide)⟩

end RaftYwng
